import Mathlib

/-!
Shallow embedding of the `rust_voronoi_planet` generation pipeline.

The geometry pipeline of the repository is embedded over exact rational
arithmetic.  Machine `f32` values are modelled as `ℚ`; the two transcendental
operations the source uses (`sqrt` for vector lengths and displacements,
`atan2` for boundary ordering) and the external convex-hull provider
(`parry3d::transformation::convex_hull`, out of scope per the specification)
are passed in as explicit primitives, so every definition stays executable.

Rust `Result<T>` values are modelled as `Except VoronoiError T`; a possible
panic (`HashMap` indexing on an absent key, or `unwrap` of the external hull)
is modelled by wrapping the outcome in `Option`, `none` meaning the source
panics before producing any value.
-/

/-- Three-dimensional vector with rational coordinates (model of `glam::Vec3`). -/
structure Vec3 where
  x : ℚ
  y : ℚ
  z : ℚ
deriving DecidableEq, Repr

/-- The zero vector. -/
def vzero : Vec3 := ⟨0, 0, 0⟩

instance : Inhabited Vec3 := ⟨vzero⟩

/-- Componentwise addition. -/
def vadd (a b : Vec3) : Vec3 := ⟨a.x + b.x, a.y + b.y, a.z + b.z⟩

/-- Componentwise subtraction. -/
def vsub (a b : Vec3) : Vec3 := ⟨a.x - b.x, a.y - b.y, a.z - b.z⟩

/-- Scalar multiple. -/
def smul (q : ℚ) (a : Vec3) : Vec3 := ⟨q * a.x, q * a.y, q * a.z⟩

/-- Dot product. -/
def dot (a b : Vec3) : ℚ := a.x * b.x + a.y * b.y + a.z * b.z

/-- Cross product. -/
def cross (a b : Vec3) : Vec3 :=
  ⟨a.y * b.z - a.z * b.y, a.z * b.x - a.x * b.z, a.x * b.y - a.y * b.x⟩

/-- Sum of a list of vectors (models `circumcenters.iter().copied().sum()`). -/
def vsum (l : List Vec3) : Vec3 := l.foldl vadd vzero

/-- A triangle as an index triple, model of `[u32; 3]` from the hull. -/
abbrev Triangle := Nat × Nat × Nat

/-- Model of `src/error.rs`: the error enum `VoronoiError`. -/
inductive VoronoiError where
  | InvalidConfig : String → VoronoiError
  | GenerationFailed : String → VoronoiError
  | CellNotFound : Nat → VoronoiError
deriving DecidableEq, Repr

/-- External and numeric primitives the embedded code is parameterised by:
`hull` models `parry3d::transformation::convex_hull` (an external collaborator,
spec 4.2, consumed but not reimplemented), `sqrtq` models `f32::sqrt` and
`atan2q` models `f32::atan2`. -/
structure Prims where
  hull : List Vec3 → List Vec3 × List Triangle
  sqrtq : ℚ → ℚ
  atan2q : ℚ → ℚ → ℚ

/-- The three vertex slots of a triangle, in slot order. -/
def triList (t : Triangle) : List Nat := [t.1, t.2.1, t.2.2]

/-- Model of `build_vertex_triangle_map` (`voronoi.rs` / `lloyd.rs`), as a function:
the `HashMap` entry for vertex `v` is the list of indices of the triangles
containing `v`, in triangle-enumeration order, one occurrence per slot that
holds `v`.  The entry is absent — so that `map[&v]` indexing panics — exactly
when this list is empty. -/
def vtmFun (tris : List Triangle) (v : Nat) : List Nat :=
  (List.range tris.length).flatMap (fun t =>
    ((triList (tris.getD t (0, 0, 0))).filter (fun w => decide (w = v))).map (fun _ => t))

/-- Model of `build_triangle_vertex_map` (`voronoi.rs`), as a function: the reverse
map entry for triangle index `t` holds exactly the vertices of triangle `t`
(the source builds it by iterating the vertex→triangle `HashMap`, so its
order is arbitrary; every downstream use is set-based). -/
def tvmFun (tris : List Triangle) (t : Nat) : List Nat := triList (tris.getD t (0, 0, 0))

/-- Model of `normal.normalize() * radius`: scaling a vector to a given radius, the
length being the square root of the self dot product. -/
def normalizeScale (sq : ℚ → ℚ) (v : Vec3) (radius : ℚ) : Vec3 :=
  smul (radius / sq (dot v v)) v

/-- Model of `compute_spherical_circumcenter` (identical in `voronoi.rs` and
`lloyd.rs`): the triangle's plane normal, normalised and scaled to the
sphere radius. -/
def compute_spherical_circumcenter (sq : ℚ → ℚ) (tri_idx : Nat) (vertices : List Vec3)
    (triangle_indices : List Triangle) (radius : ℚ) : Vec3 :=
  let tri := triangle_indices.getD tri_idx (0, 0, 0)
  let v0 := vertices.getD tri.1 vzero
  let v1 := vertices.getD tri.2.1 vzero
  let v2 := vertices.getD tri.2.2 vzero
  let edge1 := vsub v1 v0
  let edge2 := vsub v2 v0
  let normal := cross edge1 edge2
  normalizeScale sq normal radius

/-- Model of `order_voronoi_vertices` (`voronoi.rs`): fewer than 3 circumcenters are
returned unsorted; otherwise they are sorted by `atan2` angle in the tangent
plane at the seed point. -/
def order_voronoi_vertices (sq : ℚ → ℚ) (at2 : ℚ → ℚ → ℚ)
    (circumcenters : List Vec3) (seed_point : Vec3) (_radius : ℚ) : List Vec3 :=
  if circumcenters.length < 3 then circumcenters
  else
    let normal := normalizeScale sq seed_point 1
    let reference := if (1 : ℚ) / 2 < |normal.x| then (⟨0, 1, 0⟩ : Vec3) else ⟨1, 0, 0⟩
    let tangent_u := normalizeScale sq (cross reference normal) 1
    let tangent_v := normalizeScale sq (cross normal tangent_u) 1
    let withAngles := circumcenters.map (fun cc =>
      let to_cc := vsub cc seed_point
      let u := dot to_cc tangent_u
      let v := dot to_cc tangent_v
      (cc, at2 v u))
    (List.insertionSort (fun a b : Vec3 × ℚ => a.2 ≤ b.2) withAngles).map Prod.fst

/-- Model of `find_cell_neighbors` (`voronoi.rs`): every vertex other than the cell
itself occurring in a triangle incident to the cell, deduplicated (the source
collects into a `HashSet`) and sorted ascending for determinism. -/
def find_cell_neighbors (tris : List Triangle) (cell_idx : Nat) : List Nat :=
  List.insertionSort (· ≤ ·)
    (((vtmFun tris cell_idx).flatMap
        (fun t => (tvmFun tris t).filter (fun w => decide (w ≠ cell_idx)))).dedup)

/-- Model of `RawCell` (`voronoi.rs`). -/
structure RawCell where
  id : Nat
  center : Vec3
  neighbors : List Nat
  vertices : List Vec3
deriving DecidableEq, Repr

instance : Inhabited RawCell := ⟨⟨0, vzero, [], []⟩⟩

/-- The per-vertex closure of the `generate_cells` map (`voronoi.rs`, step 5):
circumcenters of the incident triangles, ordered boundary, neighbor list. -/
def cellFor (sq : ℚ → ℚ) (at2 : ℚ → ℚ → ℚ) (vertices : List Vec3)
    (triangle_indices : List Triangle) (radius : ℚ) (vertex_idx : Nat) : RawCell :=
  let adjacent_triangles := vtmFun triangle_indices vertex_idx
  let circumcenters := adjacent_triangles.map (fun tri_idx =>
    compute_spherical_circumcenter sq tri_idx vertices triangle_indices radius)
  let center := vertices.getD vertex_idx vzero
  let ordered_vertices := order_voronoi_vertices sq at2 circumcenters center radius
  let neighbors := find_cell_neighbors triangle_indices vertex_idx
  { id := vertex_idx, center := center, neighbors := neighbors,
    vertices := ordered_vertices }

/-- Model of `generate_cells` (`voronoi.rs`).  The body indexes the vertex→triangle
map with `vertex_triangle_map[&vertex_idx]` for every hull vertex, which
panics when a vertex occurs in no triangle; the result is all-or-nothing, so
the panic is modelled by the hoisted guard returning `none`.  No code path
constructs an `Except.error`: the source returns `Ok(cells)` unconditionally. -/
def generate_cells (P : Prims) (points : List Vec3) (radius : ℚ) :
    Option (Except VoronoiError (List RawCell)) :=
  let hullOut := P.hull points
  let vertices := hullOut.1
  let triangle_indices := hullOut.2
  if (List.range vertices.length).all (fun v => !(vtmFun triangle_indices v).isEmpty) then
    some (Except.ok ((List.range vertices.length).map
      (cellFor P.sqrtq P.atan2q vertices triangle_indices radius)))
  else none

/-- The new position of one vertex in `compute_new_points` (`lloyd.rs`): the
average of the circumcenters of the incident triangles, normalised back to
the sphere.  `sum / circumcenters.len()` is the scalar division of the source;
it is only reached when the incident list is nonempty. -/
def newPointFor (sq : ℚ → ℚ) (vertices : List Vec3) (triangle_indices : List Triangle)
    (radius : ℚ) (vertex_idx : Nat) : Vec3 :=
  let adjacent_triangles := vtmFun triangle_indices vertex_idx
  let circumcenters := adjacent_triangles.map (fun tri_idx =>
    compute_spherical_circumcenter sq tri_idx vertices triangle_indices radius)
  let sum := vsum circumcenters
  let centroid := smul (1 / (circumcenters.length : ℚ)) sum
  normalizeScale sq centroid radius

/-- The displacement of one vertex in `compute_new_points` (`lloyd.rs`):
the euclidean distance between the old and the new position. -/
def dispFor (sq : ℚ → ℚ) (vertices : List Vec3) (triangle_indices : List Triangle)
    (radius : ℚ) (vertex_idx : Nat) : ℚ :=
  let new_point := newPointFor sq vertices triangle_indices radius vertex_idx
  let old_pos := vertices.getD vertex_idx vzero
  let d := vsub new_point old_pos
  sq (dot d d)

/-- Model of `compute_new_points` (`lloyd.rs`): one new point per hull vertex, in hull
vertex order, together with the maximum per-vertex displacement.  The per
vertex `vertex_triangle_map[&vertex_idx]` lookup panics when the vertex has
no incident triangle; as in `generate_cells` the all-or-nothing panic is
modelled by the hoisted guard returning `none`. -/
def compute_new_points (sq : ℚ → ℚ) (vertices : List Vec3)
    (triangle_indices : List Triangle) (radius : ℚ) : Option (List Vec3 × ℚ) :=
  if (List.range vertices.length).all (fun v => !(vtmFun triangle_indices v).isEmpty) then
    some ((List.range vertices.length).map (newPointFor sq vertices triangle_indices radius),
      (List.range vertices.length).foldl (fun m v =>
        let d := dispFor sq vertices triangle_indices radius v
        if d > m then d else m) 0)
  else none

/-- Model of `LloydOptions` (`lloyd.rs`). -/
structure LloydOptions where
  max_iterations : Nat
  convergence_threshold : ℚ
deriving DecidableEq, Repr

/-- One iteration body of `lloyd_relaxation_with_options`: hull the current
points, build the adjacency map, compute the new points and the maximum
displacement. -/
def lloydStep (P : Prims) (radius : ℚ) (points : List Vec3) : Option (List Vec3 × ℚ) :=
  let hullOut := P.hull points
  compute_new_points P.sqrtq hullOut.1 hullOut.2 radius

/-- The `for iteration in 0..max_iterations` loop of
`lloyd_relaxation_with_options`, with the running `iterations_run` counter:
after each step the points are replaced and the counter incremented; the loop
breaks early exactly when `thr > 0 && max_displacement < thr`. -/
def lloydGo (P : Prims) (radius thr : ℚ) : Nat → List Vec3 → Nat → Option (List Vec3 × Nat)
  | 0, points, ran => some (points, ran)
  | Nat.succ n, points, ran =>
    match lloydStep P radius points with
    | none => none
    | some (new_points, max_displacement) =>
      if thr > 0 ∧ max_displacement < thr then some (new_points, ran + 1)
      else lloydGo P radius thr n new_points (ran + 1)

/-- Model of `lloyd_relaxation_with_options` (`lloyd.rs`): the absolute threshold is
`options.convergence_threshold * radius`; the returned pair is the final
point set together with the source's `iterations_run` counter (the number of
iterations actually executed). -/
def lloyd_relaxation_with_options (P : Prims) (points : List Vec3) (radius : ℚ)
    (options : LloydOptions) : Option (List Vec3 × Nat) :=
  let convergence_threshold := options.convergence_threshold * radius
  lloydGo P radius convergence_threshold options.max_iterations points 0

/-- The point set after `k` completed Lloyd iterations, starting from the
given points (`none` once an iteration panics). -/
def lloydState (P : Prims) (radius : ℚ) : Nat → List Vec3 → Option (List Vec3)
  | 0, points => some points
  | Nat.succ k, points =>
    match lloydStep P radius points with
    | none => none
    | some (new_points, _) => lloydState P radius k new_points

/-- The maximum displacement reported by Lloyd iteration `k + 1` (0-indexed
`k`), starting from the given points. -/
def lloydDisp (P : Prims) (radius : ℚ) : Nat → List Vec3 → Option ℚ
  | 0, points => (lloydStep P radius points).map Prod.snd
  | Nat.succ k, points =>
    match lloydStep P radius points with
    | none => none
    | some (new_points, _) => lloydDisp P radius k new_points

/-- Model of `generate_fibonacci_sphere_points` (`fibonacci.rs`): an explicit empty
result for `count = 0`, otherwise one point per index of `0..count`.  The per
index point involves trigonometry and the seeded `ChaCha8` jitter stream and
is abstracted as `body`. -/
def generate_fibonacci_sphere_points (body : Nat → Vec3) (count : Nat)
    (_radius : ℚ) (_seed : Nat) : List Vec3 :=
  if count = 0 then []
  else (List.range count).map body

/-- Modelled from the spec: `generation/points.rs` (`generate_sphere_points`),
declared by `generation/mod.rs`, is not present under `src/`.  Spec 4.1:
`generate(count, radius, seed)` returns an ordered sequence of `count` points
(`count = 0` yields an empty sequence); the per-index point formula is
abstracted as `base`. -/
def generate_sphere_points (base : Nat → ℚ → Nat → Vec3) (count : Nat) (radius : ℚ)
    (seed : Nat) : List Vec3 :=
  (List.range count).map (fun i => base i radius seed)

/-- Model of `PlanetConfig` (`config.rs`), flattened: `cell_count` and `radius` stand
for `planet_size.cell_count()` and `planet_size.sphere_radius()`. -/
structure PlanetConfig where
  seed : Nat
  cell_count : Nat
  radius : ℚ
  lloyd_iterations : Nat
  lloyd_convergence : ℚ
deriving DecidableEq, Repr

/-- Model of `generate_raw_cells` (`generation/mod.rs`): distribute the seed points,
relax them when `lloyd_iterations > 0`, then build the cells with one final
hull pass.  The `Option` layer propagates a panic of either stage. -/
def generate_raw_cells (P : Prims) (base : Nat → ℚ → Nat → Vec3) (config : PlanetConfig) :
    Option (Except VoronoiError (List RawCell)) :=
  let radius := config.radius
  let cell_count := config.cell_count
  let points := generate_sphere_points base cell_count radius config.seed
  let relaxed :=
    if config.lloyd_iterations > 0 then
      (lloyd_relaxation_with_options P points radius
        ⟨config.lloyd_iterations, config.lloyd_convergence⟩).map Prod.fst
    else some points
  match relaxed with
  | none => none
  | some ps => generate_cells P ps radius

/-- Model of `VoronoiCell<T>` (`cell.rs`). -/
structure VoronoiCell (T : Type) where
  id : Nat
  center : Vec3
  terrain : T
  neighbors : List Nat
  vertices : List Vec3
deriving DecidableEq, Repr

/-- The terrain-sampling pass of `VoronoiPlanet::generate_with_sampler`
(`planet.rs`): each raw cell becomes a full cell, terrain sampled at the cell
center, geometry and neighbors carried over unchanged. -/
def sample_cells {T : Type} (sampler : Vec3 → ℚ → T) (radius : ℚ)
    (raw_cells : List RawCell) : List (VoronoiCell T) :=
  raw_cells.map (fun raw =>
    { id := raw.id, center := raw.center, terrain := sampler raw.center radius,
      neighbors := raw.neighbors, vertices := raw.vertices })

/-- Model of `VoronoiPlanet::get_cell` (`planet.rs`): `self.cells.get(id)`. -/
def get_cell {T : Type} (cells : List (VoronoiCell T)) (id : Nat) : Option (VoronoiCell T) :=
  cells.get? id

/-- Model of `VoronoiPlanet::get_neighbors` (`planet.rs`): the neighbor list of the
cell, or the empty slice when the id is out of range. -/
def get_neighbors {T : Type} (cells : List (VoronoiCell T)) (cell_id : Nat) : List Nat :=
  ((cells.get? cell_id).map VoronoiCell.neighbors).getD []

/-- Model of `visited.insert(neighbor)` followed by `next.push(neighbor)` when the
insertion is new: the `HashSet` state is modelled as the insertion-ordered
list of its elements. -/
def insertVisit (vn : List Nat × List Nat) (w : Nat) : List Nat × List Nat :=
  if w ∈ vn.1 then vn else (vn.1 ++ [w], vn.2 ++ [w])

/-- One BFS level of `find_cells_within_radius`: expand every cell of the
current frontier through its neighbor list. -/
def bfsLevel {T : Type} (cells : List (VoronoiCell T)) (visited current : List Nat) :
    List Nat × List Nat :=
  current.foldl (fun acc cell_id => (get_neighbors cells cell_id).foldl insertVisit acc)
    (visited, [])

/-- The `for _ in 0..hops` loop of `find_cells_within_radius`. -/
def bfsGo {T : Type} (cells : List (VoronoiCell T)) : Nat → List Nat → List Nat → List Nat
  | 0, visited, _ => visited
  | Nat.succ h, visited, current =>
    let vn := bfsLevel cells visited current
    bfsGo cells h vn.1 vn.2

/-- Model of `VoronoiPlanet::find_cells_within_radius` (`planet.rs`): empty for an
out-of-range center, otherwise a hop-bounded level-synchronous BFS over the
neighbor graph starting from the visited set `{center_id}`. -/
def find_cells_within_radius {T : Type} (cells : List (VoronoiCell T))
    (center_id : Nat) (hops : Nat) : List Nat :=
  if center_id ≥ cells.length then []
  else bfsGo cells hops [center_id] [center_id]

/-- A hull primitive that keeps its input points but reports no triangles:
the degenerate "vertices but no triangles" configuration of a coplanar input. -/
def degeneratePrims : Prims := ⟨fun ps => (ps, []), fun _ => 0, fun _ _ => 0⟩

/-- Three points on the unit axes, a below-minimum input for hull building. -/
def threePoints : List Vec3 := [⟨1, 0, 0⟩, ⟨0, 1, 0⟩, ⟨0, 0, 1⟩]

/-- Concrete primitives for witnesses: the hull keeps the input points and
reports the single triangle `(0, 1, 0)`; square roots and angles are dummies
(no witness inspects a coordinate value). -/
def witnessPrims : Prims := ⟨fun ps => (ps, [(0, 1, 0)]), fun _ => 1, fun _ _ => 0⟩

/-- Two points for witnesses. -/
def witnessPoints : List Vec3 := [⟨1, 0, 0⟩, ⟨0, 1, 0⟩]

/-- The cells generated from the witness primitives and points. -/
def witnessCells : List RawCell :=
  match generate_cells witnessPrims witnessPoints 1 with
  | some (Except.ok cs) => cs
  | _ => []

/-- A hull primitive that reports no vertices and no triangles whatever the
input: a provider that drops every input point. -/
def emptyHullPrims : Prims := ⟨fun _ => ([], []), fun _ => 0, fun _ _ => 0⟩

/-- A hull primitive that keeps its input points and covers vertex `i` with
the (degenerate) triangle `(i, i, i)`: it preserves the point count and
every vertex is incident to a triangle. -/
def diagPrims : Prims :=
  ⟨fun ps => (ps, (List.range ps.length).map (fun i => (i, i, i))), fun _ => 1, fun _ _ => 0⟩

/-- A single input point, for the point-dropping Lloyd instance. -/
def oneInputPoint : List Vec3 := [vzero]

/-- C1: the specification says cell construction fails with `GenerationFailed`
when hull construction is degenerate (fewer than 4 points, or no triangles);
in the code `generate_cells` has no error path at all — it never returns
`Err` for any hull primitive, point set and radius — and on a degenerate hull
that reports vertices but no triangles it panics (modelled `none`) instead of
returning the documented error. -/
theorem generate_cells_never_returns_error :
    (∀ (P : Prims) (points : List Vec3) (radius : ℚ) (e : VoronoiError),
        generate_cells P points radius ≠ some (Except.error e)) ∧
      generate_cells degeneratePrims threePoints 1 = none := by
  constructor
  · intro P points radius e h
    cases hb : ((List.range (P.hull points).1.length).all
        fun v => !(vtmFun (P.hull points).2 v).isEmpty) <;>
      simp [generate_cells, hb] at h
  · rfl

/-- An in-range `getD` access is a member of the list. -/
theorem getD_mem {α : Type} {l : List α} {n : Nat} (d : α) (h : n < l.length) :
    l.getD n d ∈ l := by
  rw [List.getD_eq_getElem l d h]
  exact List.getElem_mem h

/-- A nonempty list has a non-`isEmpty` check. -/
theorem not_isEmpty_of_ne_nil {α : Type} {l : List α} (h : l ≠ []) : (!l.isEmpty) = true := by
  cases hl : l.isEmpty
  · rfl
  · exact absurd (List.isEmpty_iff.mp hl) h

/-- A list with a non-`isEmpty` check is nonempty. -/
theorem ne_nil_of_not_isEmpty {α : Type} {l : List α} (h : (!l.isEmpty) = true) : l ≠ [] := by
  intro hnil
  subst hnil
  simp at h

/-- Membership in the vertex→triangle map: `t` is listed for `v` exactly when
`t` is a triangle index and `v` occupies a slot of triangle `t`. -/
theorem mem_vtmFun {tris : List Triangle} {v t : Nat} :
    t ∈ vtmFun tris v ↔ t < tris.length ∧ v ∈ triList (tris.getD t (0, 0, 0)) := by
  simp only [vtmFun, List.mem_flatMap, List.mem_map, List.mem_filter, List.mem_range,
    decide_eq_true_eq]
  constructor
  · rintro ⟨a, ha, w, ⟨hw, rfl⟩, rfl⟩
    exact ⟨ha, hw⟩
  · rintro ⟨ht, hv⟩
    exact ⟨t, ht, v, ⟨hv, rfl⟩, rfl⟩

/-- The vertex→triangle entry of `v` is nonempty exactly when some triangle
contains `v`. -/
theorem vtmFun_ne_nil {tris : List Triangle} {v : Nat} :
    vtmFun tris v ≠ [] ↔ ∃ t, t < tris.length ∧ v ∈ triList (tris.getD t (0, 0, 0)) := by
  rw [Ne, List.eq_nil_iff_forall_not_mem]
  push_neg
  simp only [mem_vtmFun]

/-- Membership in a cell's neighbor list: `u` is a neighbor of `v` exactly
when `u ≠ v` and some triangle contains both. -/
theorem mem_find_cell_neighbors {tris : List Triangle} {v u : Nat} :
    u ∈ find_cell_neighbors tris v ↔
      u ≠ v ∧ ∃ t, t < tris.length ∧ v ∈ triList (tris.getD t (0, 0, 0)) ∧
        u ∈ triList (tris.getD t (0, 0, 0)) := by
  unfold find_cell_neighbors
  rw [(List.perm_insertionSort _ _).mem_iff, List.mem_dedup]
  simp only [List.mem_flatMap, List.mem_filter, mem_vtmFun, tvmFun, decide_eq_true_eq]
  constructor
  · rintro ⟨t, ⟨ht, hv⟩, hu, hne⟩
    exact ⟨hne, t, ht, hv, hu⟩
  · rintro ⟨hne, t, ht, hv, hu⟩
    exact ⟨t, ⟨ht, hv⟩, hu, hne⟩

/-- The neighbor relation of `find_cell_neighbors` is symmetric. -/
theorem find_cell_neighbors_symm {tris : List Triangle} {v u : Nat} :
    u ∈ find_cell_neighbors tris v ↔ v ∈ find_cell_neighbors tris u := by
  simp only [mem_find_cell_neighbors]
  constructor
  · rintro ⟨hne, t, ht, hv, hu⟩
    exact ⟨hne.symm, t, ht, hu, hv⟩
  · rintro ⟨hne, t, ht, hu, hv⟩
    exact ⟨hne.symm, t, ht, hv, hu⟩

/-- A neighbor list is sorted (non-strictly). -/
theorem find_cell_neighbors_sorted_le (tris : List Triangle) (v : Nat) :
    List.Sorted (· ≤ ·) (find_cell_neighbors tris v) :=
  List.sorted_insertionSort _ _

/-- A neighbor list is duplicate-free. -/
theorem find_cell_neighbors_nodup (tris : List Triangle) (v : Nat) :
    (find_cell_neighbors tris v).Nodup :=
  (List.perm_insertionSort _ _).symm.nodup (List.nodup_dedup _)

/-- A cell never lists itself as a neighbor. -/
theorem self_not_mem_find_cell_neighbors (tris : List Triangle) (v : Nat) :
    v ∉ find_cell_neighbors tris v := by
  simp [mem_find_cell_neighbors]

/-- A neighbor list is strictly ascending. -/
theorem find_cell_neighbors_sorted_lt (tris : List Triangle) (v : Nat) :
    List.Sorted (· < ·) (find_cell_neighbors tris v) :=
  ((find_cell_neighbors_sorted_le tris v).and (find_cell_neighbors_nodup tris v)).imp
    (fun h => lt_of_le_of_ne h.1 h.2)

/-- The id of a generated cell. -/
theorem cellFor_id (sq : ℚ → ℚ) (at2 : ℚ → ℚ → ℚ) (vertices : List Vec3)
    (tris : List Triangle) (radius : ℚ) (v : Nat) :
    (cellFor sq at2 vertices tris radius v).id = v := rfl

/-- The neighbor list of a generated cell. -/
theorem cellFor_neighbors (sq : ℚ → ℚ) (at2 : ℚ → ℚ → ℚ) (vertices : List Vec3)
    (tris : List Triangle) (radius : ℚ) (v : Nat) :
    (cellFor sq at2 vertices tris radius v).neighbors = find_cell_neighbors tris v := rfl

/-- Successful cell generation yields exactly the mapped cells, and every
hull vertex is covered by a triangle. -/
theorem generate_cells_eq_ok {P : Prims} {points : List Vec3} {radius : ℚ}
    {cells : List RawCell} (h : generate_cells P points radius = some (Except.ok cells)) :
    (∀ v ∈ List.range (P.hull points).1.length, vtmFun (P.hull points).2 v ≠ []) ∧
      cells = (List.range (P.hull points).1.length).map
        (cellFor P.sqrtq P.atan2q (P.hull points).1 (P.hull points).2 radius) := by
  simp only [generate_cells] at h
  split at h
  case isTrue hb =>
    simp only [Option.some.injEq, Except.ok.injEq] at h
    refine ⟨?_, h.symm⟩
    intro v hv
    exact ne_nil_of_not_isEmpty (List.all_eq_true.mp hb v hv)
  case isFalse hb =>
    simp at h

/-- When every hull vertex is covered, cell generation succeeds with the
mapped cells. -/
theorem generate_cells_of_covers {P : Prims} {points : List Vec3} {radius : ℚ}
    (hcov : ∀ v ∈ List.range (P.hull points).1.length, vtmFun (P.hull points).2 v ≠ []) :
    generate_cells P points radius =
      some (Except.ok ((List.range (P.hull points).1.length).map
        (cellFor P.sqrtq P.atan2q (P.hull points).1 (P.hull points).2 radius))) := by
  have hb : ((List.range (P.hull points).1.length).all
      fun v => !(vtmFun (P.hull points).2 v).isEmpty) = true := by
    rw [List.all_eq_true]
    intro v hv
    exact not_isEmpty_of_ne_nil (hcov v hv)
  simp [generate_cells, hb]

/-- C3: the neighbor relation of the cells produced by `generate_cells` is
symmetric: for any two generated cells `a` and `b`, `b.id` appears in
`a.neighbors` if and only if `a.id` appears in `b.neighbors`. -/
theorem generated_neighbors_symmetric (P : Prims) (points : List Vec3) (radius : ℚ)
    (cells : List RawCell) (h : generate_cells P points radius = some (Except.ok cells))
    (a b : RawCell) (ha : a ∈ cells) (hb : b ∈ cells) :
    (b.id ∈ a.neighbors ↔ a.id ∈ b.neighbors) := by
  obtain ⟨-, hcells⟩ := generate_cells_eq_ok h
  subst hcells
  obtain ⟨va, -, rfl⟩ := List.mem_map.mp ha
  obtain ⟨vb, -, rfl⟩ := List.mem_map.mp hb
  rw [cellFor_id, cellFor_id, cellFor_neighbors, cellFor_neighbors]
  exact find_cell_neighbors_symm

/-- Witness for C3 at a concrete two-cell generation. -/
theorem generated_neighbors_symmetric_witness :
    ((witnessCells.getD 1 default).id ∈ (witnessCells.getD 0 default).neighbors ↔
      (witnessCells.getD 0 default).id ∈ (witnessCells.getD 1 default).neighbors) :=
  generated_neighbors_symmetric witnessPrims witnessPoints 1 witnessCells rfl
    (witnessCells.getD 0 default) (witnessCells.getD 1 default)
    (getD_mem default (by decide)) (getD_mem default (by decide))

/-- C9: no cell produced by `generate_cells` lists itself as a neighbor, and
every neighbor list is duplicate-free and sorted strictly ascending. -/
theorem generated_neighbors_wellformed (P : Prims) (points : List Vec3) (radius : ℚ)
    (cells : List RawCell) (h : generate_cells P points radius = some (Except.ok cells))
    (c : RawCell) (hc : c ∈ cells) :
    c.id ∉ c.neighbors ∧ c.neighbors.Nodup ∧ List.Sorted (· < ·) c.neighbors := by
  obtain ⟨-, hcells⟩ := generate_cells_eq_ok h
  subst hcells
  obtain ⟨v, -, rfl⟩ := List.mem_map.mp hc
  rw [cellFor_id, cellFor_neighbors]
  exact ⟨self_not_mem_find_cell_neighbors _ _, find_cell_neighbors_nodup _ _,
    find_cell_neighbors_sorted_lt _ _⟩

/-- Witness for C9 at a concrete two-cell generation. -/
theorem generated_neighbors_wellformed_witness :
    (witnessCells.getD 0 default).id ∉ (witnessCells.getD 0 default).neighbors ∧
      (witnessCells.getD 0 default).neighbors.Nodup ∧
      List.Sorted (· < ·) (witnessCells.getD 0 default).neighbors :=
  generated_neighbors_wellformed witnessPrims witnessPoints 1 witnessCells rfl
    (witnessCells.getD 0 default) (getD_mem default (by decide))

/-- The triangle-coverage guard, as a proposition. -/
theorem all_not_isEmpty_iff {tris : List Triangle} {n : Nat} :
    ((List.range n).all fun v => !(vtmFun tris v).isEmpty) = true ↔
      ∀ v ∈ List.range n, vtmFun tris v ≠ [] := by
  rw [List.all_eq_true]
  constructor
  · intro h v hv
    exact ne_nil_of_not_isEmpty (h v hv)
  · intro h v hv
    exact not_isEmpty_of_ne_nil (h v hv)

/-- The function `generate_cells` completes (does not panic) exactly when every hull
vertex is incident to at least one hull triangle. -/
theorem generate_cells_ne_none_iff {P : Prims} {points : List Vec3} {radius : ℚ} :
    generate_cells P points radius ≠ none ↔
      ∀ v ∈ List.range (P.hull points).1.length, vtmFun (P.hull points).2 v ≠ [] := by
  rw [← all_not_isEmpty_iff]
  simp only [generate_cells]
  split
  next hb => simp [hb]
  next hb => simp [hb]

/-- The function `compute_new_points` completes (does not panic) exactly when every hull
vertex is incident to at least one hull triangle. -/
theorem compute_new_points_ne_none_iff {sq : ℚ → ℚ} {vertices : List Vec3}
    {tris : List Triangle} {radius : ℚ} :
    compute_new_points sq vertices tris radius ≠ none ↔
      ∀ v ∈ List.range vertices.length, vtmFun tris v ≠ [] := by
  rw [← all_not_isEmpty_iff]
  simp only [compute_new_points]
  split
  next hb => simp [hb]
  next hb => simp [hb]

/-- When every hull vertex is covered, `compute_new_points` succeeds with the
mapped new points and the folded maximum displacement. -/
theorem compute_new_points_of_covers {sq : ℚ → ℚ} {vertices : List Vec3}
    {tris : List Triangle} {radius : ℚ}
    (hcov : ∀ v ∈ List.range vertices.length, vtmFun tris v ≠ []) :
    compute_new_points sq vertices tris radius =
      some ((List.range vertices.length).map (newPointFor sq vertices tris radius),
        (List.range vertices.length).foldl (fun m v =>
          let d := dispFor sq vertices tris radius v
          if d > m then d else m) 0) := by
  have hb := all_not_isEmpty_iff.mpr hcov
  simp [compute_new_points, hb]

/-- C8: the map lookups of cell construction and of a Lloyd iteration have no
error branch: each stage completes without panicking exactly when every
vertex returned by the hull occurs in at least one returned triangle; in
particular, when the hull returns vertices but no triangles, generation
panics (modelled `none`) rather than returning an error. -/
theorem generation_panic_iff_uncovered_vertex :
    (∀ (P : Prims) (points : List Vec3) (radius : ℚ),
        generate_cells P points radius ≠ none ↔
          ∀ v ∈ List.range (P.hull points).1.length, vtmFun (P.hull points).2 v ≠ []) ∧
      (∀ (sq : ℚ → ℚ) (vertices : List Vec3) (tris : List Triangle) (radius : ℚ),
        compute_new_points sq vertices tris radius ≠ none ↔
          ∀ v ∈ List.range vertices.length, vtmFun tris v ≠ []) ∧
      ∀ (P : Prims) (points : List Vec3) (radius : ℚ),
        (P.hull points).1 ≠ [] → (P.hull points).2 = [] →
          generate_cells P points radius = none := by
  refine ⟨fun P points radius => generate_cells_ne_none_iff,
    fun sq vertices tris radius => compute_new_points_ne_none_iff, ?_⟩
  intro P points radius hne htris
  by_contra hcon
  have hcov := generate_cells_ne_none_iff.mp hcon
  have h0 : 0 < (P.hull points).1.length := List.length_pos.mpr hne
  have := hcov 0 (List.mem_range.mpr h0)
  rw [htris] at this
  exact this rfl

/-- Witness for C8: a hull with vertices but no triangles makes generation
panic. -/
theorem generation_panic_iff_uncovered_vertex_witness :
    generate_cells degeneratePrims witnessPoints 1 = none :=
  generation_panic_iff_uncovered_vertex.2.2 degeneratePrims witnessPoints 1
    (by decide) rfl

/-- Unfolding: the loop with no remaining iterations returns its state. -/
theorem lloydGo_zero (P : Prims) (radius thr : ℚ) (pts : List Vec3) (ran : Nat) :
    lloydGo P radius thr 0 pts ran = some (pts, ran) := rfl

/-- Unfolding: one loop iteration steps, then either breaks early or
continues. -/
theorem lloydGo_succ (P : Prims) (radius thr : ℚ) (n : Nat) (pts : List Vec3) (ran : Nat) :
    lloydGo P radius thr (n + 1) pts ran =
      match lloydStep P radius pts with
      | none => none
      | some (new_points, max_displacement) =>
        if thr > 0 ∧ max_displacement < thr then some (new_points, ran + 1)
        else lloydGo P radius thr n new_points (ran + 1) := rfl

/-- Unfolding: the state after zero iterations. -/
theorem lloydState_zero (P : Prims) (radius : ℚ) (pts : List Vec3) :
    lloydState P radius 0 pts = some pts := rfl

/-- Unfolding: the state after `k + 1` iterations steps once, then iterates. -/
theorem lloydState_succ (P : Prims) (radius : ℚ) (k : Nat) (pts : List Vec3) :
    lloydState P radius (k + 1) pts =
      match lloydStep P radius pts with
      | none => none
      | some (np, _) => lloydState P radius k np := rfl

/-- A successful step shifts the state index by one. -/
theorem lloydState_succ_of_step {P : Prims} {radius : ℚ} {pts np : List Vec3} {d : ℚ}
    (h : lloydStep P radius pts = some (np, d)) (k : Nat) :
    lloydState P radius (k + 1) pts = lloydState P radius k np := by
  rw [lloydState_succ, h]

/-- The first displacement is the one reported by the first step. -/
theorem lloydDisp_zero_of_step {P : Prims} {radius : ℚ} {pts np : List Vec3} {d : ℚ}
    (h : lloydStep P radius pts = some (np, d)) :
    lloydDisp P radius 0 pts = some d := by
  simp [lloydDisp, h]

/-- A successful step shifts the displacement index by one. -/
theorem lloydDisp_succ_of_step {P : Prims} {radius : ℚ} {pts np : List Vec3} {d : ℚ}
    (h : lloydStep P radius pts = some (np, d)) (k : Nat) :
    lloydDisp P radius (k + 1) pts = lloydDisp P radius k np := by
  simp [lloydDisp, h]

/-- Soundness of the Lloyd loop: a successful run of the loop with fuel `n`
executed some `k ≤ n` iterations; the returned points are the state after
`k` steps; no iteration before the last crossed the threshold; and if the
fuel was not exhausted, the last iteration did cross it. -/
theorem lloydGo_sound (P : Prims) (radius thr : ℚ) :
    ∀ (n : Nat) (pts : List Vec3) (ran : Nat) (q : List Vec3) (m : Nat),
      lloydGo P radius thr n pts ran = some (q, m) →
      ∃ k, m = ran + k ∧ k ≤ n ∧ lloydState P radius k pts = some q ∧
        (∀ j d, j + 1 < k → lloydDisp P radius j pts = some d → ¬(thr > 0 ∧ d < thr)) ∧
        (k < n → 0 < k ∧ lloydDisp P radius (k - 1) pts ≠ none ∧
          ∀ d, lloydDisp P radius (k - 1) pts = some d → thr > 0 ∧ d < thr) := by
  intro n
  induction n with
  | zero =>
    intro pts ran q m h
    rw [lloydGo_zero] at h
    simp only [Option.some.injEq, Prod.mk.injEq] at h
    obtain ⟨rfl, rfl⟩ := h
    refine ⟨0, (Nat.add_zero ran).symm, Nat.le_refl 0, rfl, ?_, ?_⟩
    · intro j d hj _
      exact absurd hj (by omega)
    · intro hk
      exact absurd hk (by omega)
  | succ n ih =>
    intro pts ran q m h
    rw [lloydGo_succ] at h
    cases hstep : lloydStep P radius pts with
    | none =>
      rw [hstep] at h
      simp at h
    | some pr =>
      obtain ⟨np, d⟩ := pr
      simp only [hstep] at h
      by_cases hc : thr > 0 ∧ d < thr
      · rw [if_pos hc] at h
        simp only [Option.some.injEq, Prod.mk.injEq] at h
        obtain ⟨rfl, rfl⟩ := h
        refine ⟨1, by omega, by omega, ?_, ?_, ?_⟩
        · rw [lloydState_succ_of_step hstep]
          rfl
        · intro j d' hj _
          exact absurd hj (by omega)
        · intro _
          refine ⟨Nat.one_pos, ?_, ?_⟩
          · rw [show (1 : Nat) - 1 = 0 from rfl, lloydDisp_zero_of_step hstep]
            simp
          · intro d' hd'
            rw [show (1 : Nat) - 1 = 0 from rfl, lloydDisp_zero_of_step hstep] at hd'
            obtain rfl : d = d' := by simpa using hd'
            exact hc
      · rw [if_neg hc] at h
        obtain ⟨k', hm, hk'n, hstate, hcond1, hcond2⟩ := ih np (ran + 1) q m h
        refine ⟨k' + 1, by omega, by omega, ?_, ?_, ?_⟩
        · rw [lloydState_succ_of_step hstep]
          exact hstate
        · intro j d' hj hd'
          cases j with
          | zero =>
            rw [lloydDisp_zero_of_step hstep] at hd'
            obtain rfl : d = d' := by simpa using hd'
            exact hc
          | succ j' =>
            rw [lloydDisp_succ_of_step hstep] at hd'
            exact hcond1 j' d' (by omega) hd'
        · intro hlt
          have hk'lt : k' < n := by omega
          obtain ⟨hk'pos, hne, hall⟩ := hcond2 hk'lt
          have hdisp_eq : lloydDisp P radius (k' + 1 - 1) pts = lloydDisp P radius (k' - 1) np := by
            have heq : k' + 1 - 1 = (k' - 1) + 1 := by omega
            rw [heq, lloydDisp_succ_of_step hstep]
          refine ⟨by omega, ?_, ?_⟩
          · rw [hdisp_eq]
            exact hne
          · intro d' hd'
            rw [hdisp_eq] at hd'
            exact hall d' hd'

/-- C5: Lloyd relaxation stops when `max_iterations` is reached, or — only
when `convergence_threshold > 0` — as soon as an iteration's maximum
displacement falls below `convergence_threshold × radius`; a threshold of 0
disables early stopping so all `max_iterations` iterations run. -/
theorem lloyd_stopping_behaviour (P : Prims) (points : List Vec3) (radius : ℚ)
    (options : LloydOptions) (pts : List Vec3) (ran : Nat) (hr : 0 < radius)
    (h : lloyd_relaxation_with_options P points radius options = some (pts, ran)) :
    ran ≤ options.max_iterations ∧
      (options.convergence_threshold = 0 → ran = options.max_iterations) ∧
      (ran < options.max_iterations → 0 < options.convergence_threshold ∧
        ∀ d, lloydDisp P radius (ran - 1) points = some d →
          d < options.convergence_threshold * radius) ∧
      ∀ j d, j + 1 < ran → lloydDisp P radius j points = some d →
        ¬(0 < options.convergence_threshold ∧ d < options.convergence_threshold * radius) := by
  obtain ⟨k, hm, hk, hstate, hcond1, hcond2⟩ :=
    lloydGo_sound P radius (options.convergence_threshold * radius)
      options.max_iterations points 0 pts ran h
  obtain rfl : ran = k := by omega
  have hthr_pos : 0 < options.convergence_threshold * radius ↔
      0 < options.convergence_threshold := by
    constructor
    · intro hpos
      by_contra hct
      have hle : options.convergence_threshold ≤ 0 := le_of_not_lt hct
      have hnp : options.convergence_threshold * radius ≤ 0 := by
        calc options.convergence_threshold * radius ≤ 0 * radius :=
              mul_le_mul_of_nonneg_right hle (le_of_lt hr)
          _ = 0 := zero_mul radius
      exact absurd hpos (not_lt.mpr hnp)
    · intro hct
      exact mul_pos hct hr
  refine ⟨hk, ?_, ?_, ?_⟩
  · intro hct0
    by_contra hne
    have hlt : ran < options.max_iterations := lt_of_le_of_ne hk hne
    obtain ⟨-, hnenone, hall⟩ := hcond2 hlt
    obtain ⟨d, hd⟩ := Option.ne_none_iff_exists'.mp hnenone
    have hgt := (hall d hd).1
    rw [hct0, zero_mul] at hgt
    exact lt_irrefl 0 hgt
  · intro hlt
    obtain ⟨-, hnenone, hall⟩ := hcond2 hlt
    obtain ⟨d0, hd0⟩ := Option.ne_none_iff_exists'.mp hnenone
    refine ⟨hthr_pos.mp (hall d0 hd0).1, ?_⟩
    intro d hd
    exact (hall d hd).2
  · intro j d hj hd hcontra
    exact hcond1 j d hj hd ⟨mul_pos hcontra.1 hr, hcontra.2⟩

/-- Witness for C5 at a zero-iteration run. -/
theorem lloyd_stopping_behaviour_witness :
    (0 : Nat) ≤ (⟨0, 0⟩ : LloydOptions).max_iterations ∧
      ((⟨0, 0⟩ : LloydOptions).convergence_threshold = 0 →
        (0 : Nat) = (⟨0, 0⟩ : LloydOptions).max_iterations) ∧
      ((0 : Nat) < (⟨0, 0⟩ : LloydOptions).max_iterations →
        0 < (⟨0, 0⟩ : LloydOptions).convergence_threshold ∧
        ∀ d, lloydDisp emptyHullPrims 1 (0 - 1) [] = some d →
          d < (⟨0, 0⟩ : LloydOptions).convergence_threshold * 1) ∧
      ∀ j d, j + 1 < 0 → lloydDisp emptyHullPrims 1 j [] = some d →
        ¬(0 < (⟨0, 0⟩ : LloydOptions).convergence_threshold ∧
          d < (⟨0, 0⟩ : LloydOptions).convergence_threshold * 1) :=
  lloyd_stopping_behaviour emptyHullPrims [] 1 ⟨0, 0⟩ [] 0 (by norm_num) rfl

/-- A state after `k + 1` iterations comes from a penultimate state by one
successful step. -/
theorem lloydState_succ_back (P : Prims) (radius : ℚ) :
    ∀ (k : Nat) (pts q : List Vec3), lloydState P radius (k + 1) pts = some q →
      ∃ prev d, lloydState P radius k pts = some prev ∧
        lloydStep P radius prev = some (q, d) := by
  intro k
  induction k with
  | zero =>
    intro pts q h
    rw [lloydState_succ] at h
    cases hstep : lloydStep P radius pts with
    | none =>
      rw [hstep] at h
      simp at h
    | some pr =>
      obtain ⟨np, d⟩ := pr
      simp only [hstep, lloydState_zero, Option.some.injEq] at h
      subst h
      exact ⟨pts, d, rfl, hstep⟩
  | succ k ih =>
    intro pts q h
    rw [lloydState_succ] at h
    cases hstep : lloydStep P radius pts with
    | none =>
      rw [hstep] at h
      simp at h
    | some pr =>
      obtain ⟨np, d0⟩ := pr
      simp only [hstep] at h
      obtain ⟨prev, d, hprev, hlast⟩ := ih np q h
      refine ⟨prev, d, ?_, hlast⟩
      rw [lloydState_succ_of_step hstep]
      exact hprev

/-- C10: each Lloyd iteration replaces the point set with exactly one new
point per vertex of the current hull, in the hull's vertex order; the
returned point set is the state after `iterations_run` steps and its length
equals the vertex count of the hull of the penultimate state — which can be
strictly smaller than the input length when the hull drops points. -/
theorem lloyd_points_follow_hull_vertices :
    (∀ (sq : ℚ → ℚ) (vertices : List Vec3) (tris : List Triangle) (radius : ℚ)
        (out : List Vec3 × ℚ), compute_new_points sq vertices tris radius = some out →
        out.1 = (List.range vertices.length).map (newPointFor sq vertices tris radius) ∧
          out.1.length = vertices.length) ∧
      (∀ (P : Prims) (points : List Vec3) (radius : ℚ) (options : LloydOptions)
          (pts : List Vec3) (ran : Nat),
        lloyd_relaxation_with_options P points radius options = some (pts, ran) →
          lloydState P radius ran points = some pts ∧
            (0 < ran → pts.length =
              ((P.hull ((lloydState P radius (ran - 1) points).getD points)).1).length)) ∧
      ((lloyd_relaxation_with_options emptyHullPrims oneInputPoint 1 ⟨1, 0⟩).map
          (fun r => r.1.length) = some 0 ∧ 1 ≤ oneInputPoint.length) := by
  have hcnp : ∀ (sq : ℚ → ℚ) (vertices : List Vec3) (tris : List Triangle) (radius : ℚ)
      (out : List Vec3 × ℚ), compute_new_points sq vertices tris radius = some out →
      out.1 = (List.range vertices.length).map (newPointFor sq vertices tris radius) ∧
        out.1.length = vertices.length := by
    intro sq vertices tris radius out h
    simp only [compute_new_points] at h
    split at h
    next hb =>
      simp only [Option.some.injEq] at h
      subst h
      simp
    next hb =>
      simp at h
  refine ⟨hcnp, ?_, ?_, ?_⟩
  · intro P points radius options pts ran h
    obtain ⟨k, hm, hk, hstate, -, -⟩ :=
      lloydGo_sound P radius (options.convergence_threshold * radius)
        options.max_iterations points 0 pts ran h
    obtain rfl : ran = k := by omega
    refine ⟨hstate, ?_⟩
    intro hpos
    have hsucc : lloydState P radius ((ran - 1) + 1) points = some pts := by
      have heq : (ran - 1) + 1 = ran := by omega
      rw [heq]
      exact hstate
    obtain ⟨prev, d, hprev, hlast⟩ := lloydState_succ_back P radius (ran - 1) points pts hsucc
    have hgetD : (lloydState P radius (ran - 1) points).getD points = prev := by
      rw [hprev]
      rfl
    rw [hgetD]
    have hcn : compute_new_points P.sqrtq (P.hull prev).1 (P.hull prev).2 radius =
        some (pts, d) := hlast
    exact (hcnp P.sqrtq (P.hull prev).1 (P.hull prev).2 radius (pts, d) hcn).2
  · have hstep : lloydStep emptyHullPrims 1 oneInputPoint = some ([], 0) := rfl
    have hcond : ¬(((⟨1, 0⟩ : LloydOptions).convergence_threshold * 1 > 0) ∧
        ((0 : ℚ) < (⟨1, 0⟩ : LloydOptions).convergence_threshold * 1)) := by
      norm_num [show ((⟨1, 0⟩ : LloydOptions).convergence_threshold : ℚ) = 0 from rfl]
    have hgo : lloyd_relaxation_with_options emptyHullPrims oneInputPoint 1 ⟨1, 0⟩ =
        some ([], 1) := by
      show lloydGo emptyHullPrims 1 ((⟨1, 0⟩ : LloydOptions).convergence_threshold * 1)
        1 oneInputPoint 0 = some ([], 1)
      rw [show (1 : Nat) = 0 + 1 from rfl, lloydGo_succ, hstep]
      simp only [hcond, if_false, if_neg hcond]
      exact lloydGo_zero _ _ _ _ _
    rw [hgo]
    simp
  · rfl

/-- Witness for C10: a single-vertex-free hull instance of the
`compute_new_points` shape property. -/
theorem lloyd_points_follow_hull_vertices_witness :
    (([], 0) : List Vec3 × ℚ).1 =
        (List.range ([] : List Vec3).length).map (newPointFor (fun _ => 0) [] [] 1) ∧
      (([], 0) : List Vec3 × ℚ).1.length = ([] : List Vec3).length :=
  lloyd_points_follow_hull_vertices.1 (fun _ => 0) [] [] 1 ([], 0) rfl

/-- Mapping over `Except` acts on the `ok` constructor. -/
theorem except_map_ok {A B C : Type} (f : B → C) (a : B) :
    Except.map f (Except.ok a : Except A B) = Except.ok (f a) := rfl

/-- Under a count-preserving, vertex-covering hull, every Lloyd loop run
completes and preserves the number of points. -/
theorem lloydGo_preserves_length (P : Prims) (radius thr : ℚ)
    (hpreserve : ∀ ps, ((P.hull ps).1).length = ps.length)
    (hcover : ∀ ps, ∀ v ∈ List.range (P.hull ps).1.length, vtmFun (P.hull ps).2 v ≠ []) :
    ∀ (n : Nat) (pts : List Vec3) (ran : Nat),
      ∃ q m, lloydGo P radius thr n pts ran = some (q, m) ∧ q.length = pts.length := by
  intro n
  induction n with
  | zero =>
    intro pts ran
    exact ⟨pts, ran, rfl, rfl⟩
  | succ n ih =>
    intro pts ran
    have hstep : lloydStep P radius pts =
        some ((List.range (P.hull pts).1.length).map
            (newPointFor P.sqrtq (P.hull pts).1 (P.hull pts).2 radius),
          (List.range (P.hull pts).1.length).foldl (fun m v =>
            let d := dispFor P.sqrtq (P.hull pts).1 (P.hull pts).2 radius v
            if d > m then d else m) 0) :=
      compute_new_points_of_covers (hcover pts)
    have hlen : ((List.range (P.hull pts).1.length).map
        (newPointFor P.sqrtq (P.hull pts).1 (P.hull pts).2 radius)).length = pts.length := by
      simp [hpreserve pts]
    by_cases hc : thr > 0 ∧ ((List.range (P.hull pts).1.length).foldl (fun m v =>
        let d := dispFor P.sqrtq (P.hull pts).1 (P.hull pts).2 radius v
        if d > m then d else m) 0) < thr
    · refine ⟨_, ran + 1, ?_, hlen⟩
      simp only [lloydGo_succ, hstep]
      rw [if_pos hc]
    · obtain ⟨q, m, hq, hql⟩ := ih ((List.range (P.hull pts).1.length).map
        (newPointFor P.sqrtq (P.hull pts).1 (P.hull pts).2 radius)) (ran + 1)
      refine ⟨q, m, ?_, ?_⟩
      · simp only [lloydGo_succ, hstep]
        rw [if_neg hc]
        exact hq
      · rw [hql, hlen]

/-- Every index below `n` is covered by the diagonal triangle list. -/
theorem vtmFun_diag {n v : Nat} (h : v < n) :
    vtmFun ((List.range n).map (fun i => ((i, i, i) : Triangle))) v ≠ [] := by
  rw [vtmFun_ne_nil]
  refine ⟨v, by simpa using h, ?_⟩
  have hget : ((List.range n).map (fun i => ((i, i, i) : Triangle))).getD v (0, 0, 0) =
      (v, v, v) := by
    rw [List.getD_eq_getElem _ _ (by simpa using h)]
    simp
  rw [hget]
  simp [triList]

/-- C2: for every configuration, provided the (external, assumed-correct)
hull preserves the point count and covers every vertex with a triangle, the
pipeline succeeds and produces exactly `cell_count` cells — one per seed
point, none silently lost. -/
theorem generated_cell_count_eq_config (P : Prims) (base : Nat → ℚ → Nat → Vec3)
    (config : PlanetConfig)
    (hpreserve : ∀ ps, ((P.hull ps).1).length = ps.length)
    (hcover : ∀ ps, ∀ v ∈ List.range (P.hull ps).1.length, vtmFun (P.hull ps).2 v ≠ []) :
    (generate_raw_cells P base config).map (Except.map List.length) =
      some (Except.ok config.cell_count) := by
  have hplen : (generate_sphere_points base config.cell_count config.radius
      config.seed).length = config.cell_count := by
    simp [generate_sphere_points]
  have hgen : ∀ ps : List Vec3,
      (generate_cells P ps config.radius).map (Except.map List.length) =
        some (Except.ok ps.length) := by
    intro ps
    rw [generate_cells_of_covers (hcover ps)]
    simp [hpreserve ps, except_map_ok]
  by_cases hit : config.lloyd_iterations > 0
  · obtain ⟨q, m, hq, hlenq⟩ :=
      lloydGo_preserves_length P config.radius
        (config.lloyd_convergence * config.radius) hpreserve hcover
        config.lloyd_iterations
        (generate_sphere_points base config.cell_count config.radius config.seed) 0
    have hrelax : lloyd_relaxation_with_options P
        (generate_sphere_points base config.cell_count config.radius config.seed)
        config.radius ⟨config.lloyd_iterations, config.lloyd_convergence⟩ =
          some (q, m) := hq
    simp only [generate_raw_cells, if_pos hit, hrelax, Option.map_some']
    rw [hgen q, hlenq, hplen]
  · simp only [generate_raw_cells, if_neg hit]
    rw [hgen _, hplen]

/-- Witness for C2 at a two-point configuration under the diagonal hull. -/
theorem generated_cell_count_eq_config_witness :
    (generate_raw_cells diagPrims (fun _ _ _ => vzero)
        ⟨0, 2, 1, 0, 0⟩).map (Except.map List.length) =
      some (Except.ok (⟨0, 2, 1, 0, 0⟩ : PlanetConfig).cell_count) :=
  generated_cell_count_eq_config diagPrims (fun _ _ _ => vzero) ⟨0, 2, 1, 0, 0⟩
    (fun _ => rfl) (fun _ _ hv => vtmFun_diag (List.mem_range.mp hv))

/-- An empty point set stays empty through the Lloyd loop when the hull of
the empty set is empty. -/
theorem lloydGo_nil (P : Prims) (radius thr : ℚ) (hhull : P.hull [] = ([], [])) :
    ∀ (n : Nat) (ran : Nat), ∃ m, lloydGo P radius thr n [] ran = some ([], m) := by
  have hstep : lloydStep P radius [] = some ([], 0) := by
    simp [lloydStep, hhull, compute_new_points]
  intro n
  induction n with
  | zero =>
    intro ran
    exact ⟨ran, rfl⟩
  | succ n ih =>
    intro ran
    by_cases hc : thr > 0 ∧ (0 : ℚ) < thr
    · refine ⟨ran + 1, ?_⟩
      simp only [lloydGo_succ, hstep]
      rw [if_pos hc]
    · obtain ⟨m, hm⟩ := ih (ran + 1)
      refine ⟨m, ?_⟩
      simp only [lloydGo_succ, hstep]
      rw [if_neg hc]
      exact hm

/-- C6: generating with `cell_count = 0` succeeds with zero cells rather than
an error (given the external hull maps the empty input to an empty output),
and the point distributor returns an empty sequence when `count = 0`. -/
theorem zero_cell_generation_succeeds (P : Prims) (base : Nat → ℚ → Nat → Vec3)
    (config : PlanetConfig) (body : Nat → Vec3) (radius0 : ℚ) (seed0 : Nat)
    (hcc : config.cell_count = 0) (hhull : P.hull [] = ([], [])) :
    generate_fibonacci_sphere_points body 0 radius0 seed0 = [] ∧
      generate_raw_cells P base config = some (Except.ok []) := by
  refine ⟨rfl, ?_⟩
  have hpoints : generate_sphere_points base config.cell_count config.radius
      config.seed = [] := by
    rw [hcc]
    rfl
  have hcells : generate_cells P [] config.radius = some (Except.ok []) := by
    simp [generate_cells, hhull]
  by_cases hit : config.lloyd_iterations > 0
  · obtain ⟨m, hm⟩ := lloydGo_nil P config.radius
      (config.lloyd_convergence * config.radius) hhull config.lloyd_iterations 0
    have hrelax : lloyd_relaxation_with_options P [] config.radius
        ⟨config.lloyd_iterations, config.lloyd_convergence⟩ = some ([], m) := hm
    simp only [generate_raw_cells, hpoints, if_pos hit, hrelax, Option.map_some']
    exact hcells
  · simp only [generate_raw_cells, hpoints, if_neg hit]
    exact hcells

/-- Witness for C6 at a zero-cell configuration. -/
theorem zero_cell_generation_succeeds_witness :
    generate_fibonacci_sphere_points (fun _ => vzero) 0 1 0 = [] ∧
      generate_raw_cells emptyHullPrims (fun _ _ _ => vzero) ⟨0, 0, 1, 0, 0⟩ =
        some (Except.ok []) :=
  zero_cell_generation_succeeds emptyHullPrims (fun _ _ _ => vzero) ⟨0, 0, 1, 0, 0⟩
    (fun _ => vzero) 1 0 rfl rfl

/-- C7: for every out-of-range cell id, `get_cell` returns `none` (never an
error), `get_neighbors` returns the empty slice, and
`find_cells_within_radius` returns the empty set for every hop count. -/
theorem out_of_range_id_queries_empty {T : Type} (cells : List (VoronoiCell T)) (id : Nat)
    (h : cells.length ≤ id) :
    get_cell cells id = none ∧ get_neighbors cells id = [] ∧
      ∀ hops, find_cells_within_radius cells id hops = [] := by
  have hg : cells.get? id = none := List.get?_eq_none.mpr h
  have hg2 : cells[id]? = none := by rwa [List.get?_eq_getElem?] at hg
  refine ⟨hg, ?_, ?_⟩
  · simp [get_neighbors, hg2]
  · intro hops
    simp [find_cells_within_radius, h]

/-- Witness for C7 on a concrete planet with no cells. -/
theorem out_of_range_id_queries_empty_witness :
    get_cell ([] : List (VoronoiCell Unit)) 3 = none ∧
      get_neighbors ([] : List (VoronoiCell Unit)) 3 = [] ∧
      ∀ hops, find_cells_within_radius ([] : List (VoronoiCell Unit)) 3 hops = [] :=
  out_of_range_id_queries_empty ([] : List (VoronoiCell Unit)) 3 (by decide)

/-- The neighbor list the planet reports for a generated cell is the
`find_cell_neighbors` list of its hull vertex. -/
theorem get_neighbors_generated {T : Type} (sampler : Vec3 → ℚ → T)
    {P : Prims} {points : List Vec3} {radius : ℚ} {raw : List RawCell}
    (h : generate_cells P points radius = some (Except.ok raw))
    {c : Nat} (hc : c < (sample_cells sampler radius raw).length) :
    get_neighbors (sample_cells sampler radius raw) c =
      find_cell_neighbors (P.hull points).2 c := by
  obtain ⟨-, hraw⟩ := generate_cells_eq_ok h
  subst hraw
  have hlt : c < (P.hull points).1.length := by
    simpa [sample_cells] using hc
  simp [get_neighbors, sample_cells, List.getElem?_map, List.getElem?_range, hlt,
    cellFor_neighbors]

/-- Inserting a block of fresh, duplicate-free ids appends it to both the
visited set and the next frontier. -/
theorem foldl_insertVisit_append_of_new :
    ∀ (l vis nxt : List Nat), l.Nodup → (∀ w ∈ l, w ∉ vis) →
      l.foldl insertVisit (vis, nxt) = (vis ++ l, nxt ++ l) := by
  intro l
  induction l with
  | nil =>
    intro vis nxt _ _
    simp
  | cons w l ih =>
    intro vis nxt hnd hnew
    have hw : w ∉ vis := hnew w (List.mem_cons_self _ _)
    have hstep : insertVisit (vis, nxt) w = (vis ++ [w], nxt ++ [w]) := by
      simp [insertVisit, hw]
    have hnew2 : ∀ u ∈ l, u ∉ vis ++ [w] := by
      intro u hu
      rw [List.mem_append]
      rintro (hv | hs)
      · exact hnew u (List.mem_cons_of_mem _ hu) hv
      · have hueq : u = w := by simpa using hs
        exact (List.nodup_cons.mp hnd).1 (hueq ▸ hu)
    rw [List.foldl_cons, hstep, ih (vis ++ [w]) (nxt ++ [w]) (List.Nodup.of_cons hnd) hnew2]
    simp

/-- The visited set stays duplicate-free through a block of insertions. -/
theorem foldl_insertVisit_fst_nodup :
    ∀ (l : List Nat) (acc : List Nat × List Nat), acc.1.Nodup →
      ((l.foldl insertVisit acc).1).Nodup := by
  intro l
  induction l with
  | nil =>
    intro acc h
    exact h
  | cons w l ih =>
    intro acc h
    rw [List.foldl_cons]
    apply ih
    by_cases hw : w ∈ acc.1
    · simpa [insertVisit, hw] using h
    · have hins : (insertVisit acc w).1 = acc.1 ++ [w] := by
        simp [insertVisit, hw]
      rw [hins]
      refine List.Nodup.append h (List.nodup_singleton w) ?_
      intro a ha hb
      obtain rfl : a = w := by simpa using hb
      exact hw ha

/-- The visited set stays duplicate-free through one whole BFS level. -/
theorem bfsLevel_foldl_fst_nodup {T : Type} (cells : List (VoronoiCell T)) :
    ∀ (current : List Nat) (acc : List Nat × List Nat), acc.1.Nodup →
      ((current.foldl
        (fun acc cell_id => (get_neighbors cells cell_id).foldl insertVisit acc) acc).1).Nodup := by
  intro current
  induction current with
  | nil =>
    intro acc h
    exact h
  | cons c current ih =>
    intro acc h
    rw [List.foldl_cons]
    exact ih _ (foldl_insertVisit_fst_nodup _ _ h)

/-- The BFS result is duplicate-free: each cell is visited at most once. -/
theorem bfsGo_nodup {T : Type} (cells : List (VoronoiCell T)) :
    ∀ (hops : Nat) (visited current : List Nat), visited.Nodup →
      (bfsGo cells hops visited current).Nodup := by
  intro hops
  induction hops with
  | zero =>
    intro visited current h
    exact h
  | succ hops ih =>
    intro visited current h
    show (bfsGo cells hops (bfsLevel cells visited current).1
      (bfsLevel cells visited current).2).Nodup
    exact ih _ _ (bfsLevel_foldl_fst_nodup cells current (visited, []) h)

/-- C4: on a generated planet and a valid cell id `c`,
`find_cells_within_radius c 0` is exactly the singleton `[c]`,
`find_cells_within_radius c 1` has size `1 + len(get_neighbors c)`, and the
BFS visits each cell at most once (its result is duplicate-free) for every
hop count. -/
theorem bfs_radius_zero_and_one {T : Type} (sampler : Vec3 → ℚ → T)
    (P : Prims) (points : List Vec3) (radius : ℚ) (raw : List RawCell)
    (h : generate_cells P points radius = some (Except.ok raw))
    (c : Nat) (hc : c < (sample_cells sampler radius raw).length) :
    find_cells_within_radius (sample_cells sampler radius raw) c 0 = [c] ∧
      (find_cells_within_radius (sample_cells sampler radius raw) c 1).length =
        1 + (get_neighbors (sample_cells sampler radius raw) c).length ∧
      ∀ hops, (find_cells_within_radius (sample_cells sampler radius raw) c hops).Nodup := by
  have hn := get_neighbors_generated sampler h hc
  refine ⟨?_, ?_, ?_⟩
  · simp only [find_cells_within_radius]
    rw [if_neg (not_le.mpr hc)]
    rfl
  · simp only [find_cells_within_radius]
    rw [if_neg (not_le.mpr hc)]
    show ((bfsLevel (sample_cells sampler radius raw) [c] [c]).1).length = _
    have hlevel : bfsLevel (sample_cells sampler radius raw) [c] [c] =
        (get_neighbors (sample_cells sampler radius raw) c).foldl insertVisit ([c], []) := by
      simp [bfsLevel]
    have hfresh : ∀ w ∈ get_neighbors (sample_cells sampler radius raw) c, w ∉ [c] := by
      intro w hw
      rw [hn] at hw
      have hne := (mem_find_cell_neighbors.mp hw).1
      simp [hne]
    have hnd : (get_neighbors (sample_cells sampler radius raw) c).Nodup := by
      rw [hn]
      exact find_cell_neighbors_nodup _ _
    rw [hlevel, foldl_insertVisit_append_of_new _ [c] [] hnd hfresh]
    simp [Nat.add_comm]
  · intro hops
    simp only [find_cells_within_radius]
    rw [if_neg (not_le.mpr hc)]
    exact bfsGo_nodup _ hops [c] [c] (List.nodup_singleton c)

/-- Witness for C4 at a concrete generated two-cell planet. -/
theorem bfs_radius_zero_and_one_witness :
    find_cells_within_radius (sample_cells (fun _ _ => ()) 1 witnessCells) 0 0 = [0] ∧
      (find_cells_within_radius (sample_cells (fun _ _ => ()) 1 witnessCells) 0 1).length =
        1 + (get_neighbors (sample_cells (fun _ _ => ()) 1 witnessCells) 0).length ∧
      ∀ hops,
        (find_cells_within_radius (sample_cells (fun _ _ => ()) 1 witnessCells) 0 hops).Nodup :=
  bfs_radius_zero_and_one (fun _ _ => ()) witnessPrims witnessPoints 1 witnessCells rfl 0
    (by decide)
